import Mathlib

/-!
Verification of the `data-structures` repository: a persistent binary search
tree (`src/binary_search_tree.rs`) and an array-backed binary max-heap
(`src/heap.rs`).

The Rust code is shallowly embedded:

* `BinarySearchTree` mirrors the tree enum; operations are translated as pure
  functions.  The repository's operations require `T: Clone + PartialOrd`; the
  main embedding instantiates the ordering with a total (linear) order, which
  is the regime every comparison returns `Some`.  The `todo!()` branch taken
  on an unordered comparison is modelled separately by `deleteP`, which takes
  an arbitrary partial comparator and returns `none` for the panic.
* Reference-counted structural sharing (`Rc`) is modelled by an append-only
  store of nodes (`RcNode`/`insertS`/`findS`): allocating `Rc::new` appends a
  cell, cloning an `Rc` copies an address, and "no existing node is mutated"
  becomes "the old store is a prefix of the new store".
* `Heap` is a list with the same `trickle_up`/`trickle_down` index
  manipulation as the source.
-/

namespace DS

/-- The tree enum from `binary_search_tree.rs`: `Empty`, or a `Node` holding
an item and two subtrees (the `Rc` wrapper is invisible to value semantics). -/
inductive BinarySearchTree (T : Type) where
  | Empty : BinarySearchTree T
  | Node : T → BinarySearchTree T → BinarySearchTree T → BinarySearchTree T
deriving Repr, DecidableEq

namespace BinarySearchTree

variable {T : Type}

/-- `BinarySearchTree::make_leaf`. -/
def make_leaf (item : T) : BinarySearchTree T :=
  .Node item .Empty .Empty

/-- `BinarySearchTree::is_empty`. -/
def is_empty : BinarySearchTree T → Bool
  | .Empty => true
  | .Node _ _ _ => false

/-- `BinarySearchTree::item`. -/
def item : BinarySearchTree T → Option T
  | .Empty => none
  | .Node x _ _ => some x

/-- `BinarySearchTree::left`. -/
def left : BinarySearchTree T → Option (BinarySearchTree T)
  | .Empty => none
  | .Node _ l _ => some l

/-- `BinarySearchTree::right`. -/
def right : BinarySearchTree T → Option (BinarySearchTree T)
  | .Empty => none
  | .Node _ _ r => some r

/-- `BinarySearchTree::find`, for a total order (`partial_cmp` always `Some`):
compare the node's item with the key; equal returns the item, greater recurses
left, less recurses right. -/
def find [LinearOrder T] : BinarySearchTree T → T → Option T
  | .Empty, _ => none
  | .Node x l r, key =>
    match compare x key with
    | .eq => some x
    | .gt => find l key
    | .lt => find r key

/-- `BinarySearchTree::insert`, for a total order: the new item is compared
against the node's item; equal replaces the payload keeping both subtrees,
less rebuilds the left spine, greater the right spine. -/
def insert [LinearOrder T] : BinarySearchTree T → T → BinarySearchTree T
  | .Empty, x => make_leaf x
  | .Node y l r, x =>
    match compare x y with
    | .eq => .Node x l r
    | .lt => .Node y (insert l x) r
    | .gt => .Node y l (insert r x)

/-- `BinarySearchTree::smallest`: leftmost item. -/
def smallest : BinarySearchTree T → Option T
  | .Empty => none
  | .Node x l _ => if l.is_empty then some x else smallest l

/-- `BinarySearchTree::delete`, for a total order.  Equal with an empty left
subtree returns the right subtree; equal with an empty right subtree returns
the left; equal with both non-empty splices in the in-order successor
(`smallest` of the right subtree) and deletes it from the right subtree.
`none` is the `Option::None` return for an absent key. -/
def delete [LinearOrder T] : BinarySearchTree T → T → Option (BinarySearchTree T)
  | .Empty, _ => none
  | .Node x l r, key =>
    match compare x key with
    | .eq =>
      if l.is_empty then some r
      else if r.is_empty then some l
      else
        match smallest r with
        | none => none
        | some s =>
          match delete r s with
          | none => none
          | some r' => some (.Node s l r')
    | .lt =>
      match delete r key with
      | none => none
      | some r' => some (.Node x l r')
    | .gt =>
      match delete l key with
      | none => none
      | some l' => some (.Node x l' r)

/-- `BinarySearchTree::delete` over an arbitrary partial comparator `pcmp`
(the `T: PartialOrd` the source actually demands).  The outer `Option` layer
models control flow that never returns normally: `none` is the `todo!()`
panic taken when `partial_cmp` yields `None` (and the `unwrap` on `smallest`,
unreachable for a non-empty subtree); `some none` is the normal `None` return
for an absent key; `some (some t)` is `Some(t)`. -/
def deleteP (pcmp : T → T → Option Ordering) :
    BinarySearchTree T → T → Option (Option (BinarySearchTree T))
  | .Empty, _ => some none
  | .Node x l r, key =>
    match pcmp x key with
    | none => none
    | some .eq =>
      if l.is_empty then some (some r)
      else if r.is_empty then some (some l)
      else
        match smallest r with
        | none => none
        | some s =>
          match deleteP pcmp r s with
          | none => none
          | some none => some none
          | some (some r') => some (some (.Node s l r'))
    | some .lt =>
      match deleteP pcmp r key with
      | none => none
      | some none => some none
      | some (some r') => some (some (.Node x l r'))
    | some .gt =>
      match deleteP pcmp l key with
      | none => none
      | some none => some none
      | some (some l') => some (some (.Node x l' r))

/-- Membership of an item in a tree (as a value). -/
def memT (y : T) : BinarySearchTree T → Prop
  | .Empty => False
  | .Node x l r => y = x ∨ memT y l ∨ memT y r

instance instDecMemT [DecidableEq T] (y : T) :
    (t : BinarySearchTree T) → Decidable (memT y t)
  | .Empty => .isFalse (fun h => h)
  | .Node x l r =>
    have : Decidable (memT y l) := instDecMemT y l
    have : Decidable (memT y r) := instDecMemT y r
    inferInstanceAs (Decidable (y = x ∨ memT y l ∨ memT y r))

/-- Every item of the tree satisfies `P`. -/
def ForallT (P : T → Prop) : BinarySearchTree T → Prop
  | .Empty => True
  | .Node x l r => P x ∧ ForallT P l ∧ ForallT P r

instance instDecForallT {P : T → Prop} [DecidablePred P] :
    (t : BinarySearchTree T) → Decidable (ForallT P t)
  | .Empty => .isTrue trivial
  | .Node x l r =>
    have : Decidable (ForallT P l) := instDecForallT l
    have : Decidable (ForallT P r) := instDecForallT r
    inferInstanceAs (Decidable (P x ∧ ForallT P l ∧ ForallT P r))

/-- The BST order invariant of the spec: at every node, every item of the
left subtree is strictly below the node's item and every item of the right
subtree strictly above it. -/
def isBST [LinearOrder T] : BinarySearchTree T → Prop
  | .Empty => True
  | .Node x l r => ForallT (· < x) l ∧ ForallT (x < ·) r ∧ isBST l ∧ isBST r

instance instDecIsBST [LinearOrder T] :
    (t : BinarySearchTree T) → Decidable (isBST t)
  | .Empty => .isTrue trivial
  | .Node x l r =>
    have : Decidable (isBST l) := instDecIsBST l
    have : Decidable (isBST r) := instDecIsBST r
    inferInstanceAs (Decidable (ForallT (· < x) l ∧ ForallT (x < ·) r ∧ isBST l ∧ isBST r))

/-- A client call on the tree: insert an item or delete a key.  On a `delete`
returning `None` the caller keeps its old tree (the operation reports
absence, it does not produce a tree). -/
inductive TreeOp (T : Type) where
  | ins : T → TreeOp T
  | del : T → TreeOp T

/-- Apply one client call to the current tree. -/
def applyOp [LinearOrder T] (t : BinarySearchTree T) : TreeOp T → BinarySearchTree T
  | .ins x => t.insert x
  | .del k =>
    match t.delete k with
    | some t' => t'
    | none => t

/-- The tree obtained from the empty tree by a sequence of inserts/deletes. -/
def buildOps [LinearOrder T] (ops : List (TreeOp T)) : BinarySearchTree T :=
  ops.foldl applyOp .Empty

/-- The tree obtained by inserting the items of `xs` in order into the empty
tree. -/
def buildList [LinearOrder T] (xs : List T) : BinarySearchTree T :=
  xs.foldl insert .Empty

end BinarySearchTree

/-!
### The `Rc` store model

`Rc<Node<T>>` is modelled by an address into an append-only store:
`Rc::new` appends a fresh cell and returns its address, `Rc::clone` copies an
address.  A tree value is `Option Nat`: `none` is `Empty`, `some a` a `Node`
behind address `a`.  Mutation of an existing cell would show up as a store
whose old part changed, so "insert never mutates an existing node" is the
statement that the old store is a prefix of the new one.  The recursion is
fuel-bounded (`none` = out of fuel) because a raw store is not known to be
acyclic; every claim instantiates the fuel high enough for its input.
-/

/-- One heap cell: the `Node { item, left, right }` record, subtrees by
address (`none` = `Empty`). -/
structure RcNode (T : Type) where
  item : T
  left : Option Nat
  right : Option Nat
deriving Repr, DecidableEq

/-- The heap of reference-counted nodes. -/
abbrev Store (T : Type) := List (RcNode T)

/-- Addresses stored in reachable cells stay inside the store. -/
def ValidStore {T : Type} (s : Store T) : Prop :=
  ∀ nd ∈ s, (∀ a ∈ nd.left, a < s.length) ∧ (∀ a ∈ nd.right, a < s.length)

instance {T : Type} [DecidableEq T] (s : Store T) : Decidable (ValidStore s) := by
  unfold ValidStore
  infer_instance

/-- `BinarySearchTree::insert` on the store: the returned pair is the new
store and the address of the new root.  `Empty` allocates a leaf
(`make_leaf`); an equal comparison allocates one node whose subtree addresses
are the old node's (`node.left.clone()` / `node.right.clone()`); less/greater
recurse and allocate one node sharing the untouched side's address. -/
def insertS {T : Type} (cmp : T → T → Ordering) :
    Nat → Store T → Option Nat → T → Option (Store T × Nat)
  | 0, _, _, _ => none
  | _ + 1, s, none, x => some (s ++ [⟨x, none, none⟩], s.length)
  | fuel + 1, s, some a, x =>
    match s[a]? with
    | none => none
    | some nd =>
      match cmp x nd.item with
      | .eq => some (s ++ [⟨x, nd.left, nd.right⟩], s.length)
      | .lt =>
        match insertS cmp fuel s nd.left x with
        | none => none
        | some (s', l') => some (s' ++ [⟨nd.item, some l', nd.right⟩], s'.length)
      | .gt =>
        match insertS cmp fuel s nd.right x with
        | none => none
        | some (s', r') => some (s' ++ [⟨nd.item, nd.left, some r'⟩], s'.length)

/-- `BinarySearchTree::find` on the store (fuel-bounded descent). -/
def findS {T : Type} (cmp : T → T → Ordering) :
    Nat → Store T → Option Nat → T → Option T
  | 0, _, _, _ => none
  | _ + 1, _, none, _ => none
  | fuel + 1, s, some a, key =>
    match s[a]? with
    | none => none
    | some nd =>
      match cmp nd.item key with
      | .eq => some nd.item
      | .gt => findS cmp fuel s nd.left key
      | .lt => findS cmp fuel s nd.right key

/-!
### The heap (`heap.rs`)

`Heap<T>` is its backing `Vec<T>`, modelled as a `List T`.
-/

namespace Heap

variable {T : Type}

/-- `Heap::parent`. -/
def parent (node : Nat) : Nat := (node - 1) / 2

/-- `Heap::children`. -/
def children (node : Nat) : Nat × Nat := (node * 2 + 1, node * 2 + 2)

/-- `Vec::swap` on positions `i` and `j` (identity out of bounds; the source
only ever swaps in-bounds indices). -/
def swapL (l : List T) (i j : Nat) : List T :=
  match l[i]?, l[j]? with
  | some a, some b => (l.set i b).set j a
  | _, _ => l

/-- `Heap::trickle_up`: while not at the root and greater than the parent,
swap with the parent and continue there. -/
def trickle_up [LinearOrder T] (data : List T) (node : Nat) : List T :=
  if h0 : node = 0 then data
  else
    match data[parent node]?, data[node]? with
    | some dp, some dn =>
      if dp < dn then trickle_up (swapL data (parent node) node) (parent node)
      else data
    | _, _ => data
termination_by node
decreasing_by
  simp only [swapL, parent]
  omega

/-- `Heap::trickle_down`: the source computes `(l, r) = children(node)`,
returns if `l` is out of range, takes `child = l` when `r` is out of range or
`data[l] > data[r]`, else `child = r`, then swaps with `child` and recurses
there while the child exceeds the current node.  The two `child` values are
spelled out per branch (`node` is in bounds whenever its left child is). -/
def trickle_down [LinearOrder T] (data : List T) (node : Nat) : List T :=
  if hl : data.length ≤ node * 2 + 1 then data
  else
    if hr : data.length ≤ node * 2 + 2 then
      if data[node] < data[node * 2 + 1] then
        trickle_down (swapL data node (node * 2 + 1)) (node * 2 + 1)
      else data
    else
      if data[node * 2 + 1] > data[node * 2 + 2] then
        if data[node] < data[node * 2 + 1] then
          trickle_down (swapL data node (node * 2 + 1)) (node * 2 + 1)
        else data
      else
        if data[node] < data[node * 2 + 2] then
          trickle_down (swapL data node (node * 2 + 2)) (node * 2 + 2)
        else data
termination_by data.length - node
decreasing_by
  · have h2 : (swapL data node (node * 2 + 1)).length = data.length := by
      unfold swapL; split <;> simp
    omega
  · have h2 : (swapL data node (node * 2 + 1)).length = data.length := by
      unfold swapL; split <;> simp
    omega
  · have h2 : (swapL data node (node * 2 + 2)).length = data.length := by
      unfold swapL; split <;> simp
    omega

/-- `Heap::from_vec`: take the storage and sift every index from `1` to
`len - 1` upward, in increasing order. -/
def from_vec [LinearOrder T] (data : List T) : List T :=
  (List.range' 1 (data.length - 1)).foldl trickle_up data

/-- `Heap::into_vec`: the backing storage as-is. -/
def into_vec (data : List T) : List T := data

/-- `Heap::push`: append at the end, then sift the new slot upward. -/
def push [LinearOrder T] (data : List T) (item : T) : List T :=
  trickle_up (data ++ [item]) data.length

/-- `Heap::pop`: `None` on the empty heap; otherwise `swap_remove(0)` (save
slot 0, move the last element into slot 0, shrink by one), sift slot 0
downward, and return the saved element.  The pair is (returned value,
storage afterwards). -/
def pop [LinearOrder T] (data : List T) : Option T × List T :=
  match data with
  | [] => (none, data)
  | v :: rest =>
    let d :=
      match rest.getLast? with
      | none => []
      | some last => last :: rest.dropLast
    (some v, trickle_down d 0)

/-- The `pop` algorithm exactly as §4.2 of the spec words it: save the root,
replace the root slot with the *last* element of the backing storage, shrink
the storage by one, sift the new root downward, return the saved root.
(Modelled from the spec for the refinement claim about `pop`.) -/
def popSpec [LinearOrder T] (data : List T) : Option T × List T :=
  match data.head?, data.getLast? with
  | some root, some last => (some root, trickle_down ((data.set 0 last).dropLast) 0)
  | _, _ => (none, data)

/-- `≤` read through `Option`: vacuously true when either index is out of
range. -/
def optLe [LinearOrder T] : Option T → Option T → Prop
  | some a, some b => a ≤ b
  | _, _ => True

instance [LinearOrder T] : ∀ o o' : Option T, Decidable (optLe o o')
  | some _, some _ => inferInstanceAs (Decidable (_ ≤ _))
  | none, _ => .isTrue trivial
  | some _, none => .isTrue trivial

/-- The heap order invariant: every non-root in-range index is `≤` the
element at its parent index. -/
def heapInv [LinearOrder T] (l : List T) : Prop :=
  ∀ j, j ≠ 0 → optLe l[j]? l[parent j]?

/-- A heap-client call: push an item or pop the maximum. -/
inductive HeapOp (T : Type) where
  | push : T → HeapOp T
  | pop : HeapOp T

/-- Apply one heap call to the backing storage. -/
def applyHeapOp [LinearOrder T] (l : List T) : HeapOp T → List T
  | .push x => push l x
  | .pop => (pop l).2

/-- The storage after running `ops` on the heap built from `v`. -/
def runHeap [LinearOrder T] (v : List T) (ops : List (HeapOp T)) : List T :=
  ops.foldl applyHeapOp (from_vec v)

end Heap

namespace BinarySearchTree

variable {T : Type}

theorem is_empty_iff {t : BinarySearchTree T} : t.is_empty = true ↔ t = .Empty := by
  cases t <;> simp [is_empty]

theorem ForallT_mem {P : T → Prop} {y : T} :
    ∀ {t : BinarySearchTree T}, ForallT P t → memT y t → P y
  | .Node x l r, ⟨hx, hl, hr⟩, hm => by
    rcases hm with h | h | h
    · exact h ▸ hx
    · exact ForallT_mem hl h
    · exact ForallT_mem hr h

theorem mem_ForallT {P : T → Prop} :
    ∀ {t : BinarySearchTree T}, (∀ y, memT y t → P y) → ForallT P t
  | .Empty, _ => trivial
  | .Node x l r, h =>
    ⟨h x (Or.inl rfl),
     mem_ForallT fun y hy => h y (Or.inr (Or.inl hy)),
     mem_ForallT fun y hy => h y (Or.inr (Or.inr hy))⟩

theorem ForallT_imp {P Q : T → Prop} (h : ∀ y, P y → Q y) :
    ∀ {t : BinarySearchTree T}, ForallT P t → ForallT Q t
  | .Empty, _ => trivial
  | .Node _ _ _, ⟨hx, hl, hr⟩ => ⟨h _ hx, ForallT_imp h hl, ForallT_imp h hr⟩

section Ordered

variable [LinearOrder T]

theorem insert_ForallT {P : T → Prop} {x : T} (hx : P x) :
    ∀ {t : BinarySearchTree T}, ForallT P t → ForallT P (insert t x)
  | .Empty, _ => ⟨hx, trivial, trivial⟩
  | .Node y l r, ⟨hy, hl, hr⟩ => by
    unfold insert
    rcases hcmp : compare x y with h | h | h <;>
      exact ⟨by assumption, by first | assumption | exact insert_ForallT hx hl,
             by first | assumption | exact insert_ForallT hx hr⟩

theorem insert_isBST {x : T} : ∀ {t : BinarySearchTree T}, isBST t → isBST (insert t x)
  | .Empty, _ => ⟨trivial, trivial, trivial, trivial⟩
  | .Node y l r, ⟨hl, hr, bl, br⟩ => by
    unfold insert
    rcases hcmp : compare x y with hcmp | hcmp | hcmp
    · rw [compare_lt_iff_lt] at hcmp
      exact ⟨insert_ForallT (P := (· < y)) hcmp hl, hr, insert_isBST bl, br⟩
    · rw [compare_eq_iff_eq] at hcmp
      subst hcmp
      exact ⟨hl, hr, bl, br⟩
    · rw [compare_gt_iff_gt] at hcmp
      exact ⟨hl, insert_ForallT (P := (y < ·)) hcmp hr, bl, insert_isBST br⟩

theorem insert_mem {x y : T} :
    ∀ {t : BinarySearchTree T}, memT y (insert t x) ↔ y = x ∨ memT y t
  | .Empty => by simp [insert, make_leaf, memT]
  | .Node z l r => by
    unfold insert
    rcases hcmp : compare x z with hcmp | hcmp | hcmp
    · show memT y (.Node z (insert l x) r) ↔ _
      simp only [memT, insert_mem (t := l)]
      tauto
    · rw [compare_eq_iff_eq] at hcmp
      subst hcmp
      show memT y (.Node x l r) ↔ _
      simp only [memT]
      tauto
    · show memT y (.Node z l (insert r x)) ↔ _
      simp only [memT, insert_mem (t := r)]
      tauto

theorem smallest_isSome :
    ∀ {t : BinarySearchTree T}, t ≠ .Empty → ∃ s, smallest t = some s
  | .Empty, h => absurd rfl h
  | .Node x l _, _ => by
    unfold smallest
    by_cases hl : l.is_empty
    · exact ⟨x, by simp [hl]⟩
    · obtain ⟨s, hs⟩ := smallest_isSome (fun he => hl (is_empty_iff.mpr he))
      exact ⟨s, by simp [hl, hs]⟩

theorem smallest_mem {s : T} :
    ∀ {t : BinarySearchTree T}, smallest t = some s → memT s t
  | .Node x l _, h => by
    unfold smallest at h
    by_cases hl : l.is_empty
    · simp [hl] at h
      exact Or.inl h.symm
    · simp [hl] at h
      exact Or.inr (Or.inl (smallest_mem h))

theorem smallest_le {s : T} :
    ∀ {t : BinarySearchTree T}, isBST t → smallest t = some s →
      ∀ y, memT y t → s ≤ y
  | .Node x l r, ⟨hl, hr, bl, _⟩, h, y, hy => by
    unfold smallest at h
    by_cases hle : l.is_empty
    · simp [hle] at h
      subst h
      have hle' := is_empty_iff.mp hle
      rcases hy with hy | hy | hy
      · exact le_of_eq hy.symm
      · rw [hle'] at hy; exact absurd hy (fun h => h)
      · exact le_of_lt (ForallT_mem hr hy)
    · simp [hle] at h
      have hsx : s < x := ForallT_mem (P := (· < x)) (y := s) hl (smallest_mem h)
      rcases hy with hy | hy | hy
      · exact hy ▸ le_of_lt hsx
      · exact smallest_le bl h y hy
      · exact le_of_lt (lt_trans hsx (ForallT_mem hr hy))

theorem not_empty_of_is_empty_false {t : BinarySearchTree T} (h : t.is_empty = false) :
    t ≠ .Empty := by
  intro he
  rw [he] at h
  exact absurd h (by simp [is_empty])

theorem find_not_mem [LinearOrder T] {k : T} :
    ∀ {t : BinarySearchTree T}, ¬ memT k t → find t k = none
  | .Empty, _ => rfl
  | .Node x l r, hnm => by
    rw [find]
    rcases hcmp : compare x k with _ | _ | _
    · exact find_not_mem fun h => hnm (Or.inr (Or.inr h))
    · rw [compare_eq_iff_eq] at hcmp
      exact absurd (Or.inl hcmp.symm) hnm
    · exact find_not_mem fun h => hnm (Or.inr (Or.inl h))

theorem find_mem [LinearOrder T] {k : T} :
    ∀ {t : BinarySearchTree T}, isBST t → memT k t → find t k = some k
  | .Node x l r, ⟨hfl, hfr, bl, br⟩, hm => by
    rw [find]
    rcases hcmp : compare x k with _ | _ | _
    · rw [compare_lt_iff_lt] at hcmp
      rcases hm with h | h | h
      · exact absurd (h ▸ hcmp) (lt_irrefl k)
      · exact absurd (lt_trans (ForallT_mem (P := (· < x)) hfl h) hcmp) (lt_irrefl k)
      · exact find_mem br h
    · rw [compare_eq_iff_eq] at hcmp
      rw [hcmp]
    · rw [compare_gt_iff_gt] at hcmp
      rcases hm with h | h | h
      · exact absurd (h ▸ hcmp) (lt_irrefl k)
      · exact find_mem bl h
      · exact absurd (lt_trans hcmp (ForallT_mem (P := (x < ·)) hfr h)) (lt_irrefl k)

theorem delete_not_mem [LinearOrder T] {k : T} :
    ∀ {t : BinarySearchTree T}, ¬ memT k t → delete t k = none
  | .Empty, _ => rfl
  | .Node x l r, hnm => by
    rw [delete]
    rcases hcmp : compare x k with _ | _ | _
    · rw [delete_not_mem fun h => hnm (Or.inr (Or.inr h))]
    · rw [compare_eq_iff_eq] at hcmp
      exact absurd (Or.inl hcmp.symm) hnm
    · rw [delete_not_mem fun h => hnm (Or.inr (Or.inl h))]

/-- The heart of delete correctness: deleting a present key from a BST
succeeds, keeps the BST invariant, and removes exactly that key. -/
theorem delete_mem_spec [LinearOrder T] {k : T} :
    ∀ {t : BinarySearchTree T}, isBST t → memT k t →
      ∃ t', delete t k = some t' ∧ isBST t' ∧
        ∀ y, memT y t' ↔ (memT y t ∧ y ≠ k)
  | .Node x l r, ⟨hfl, hfr, bl, br⟩, hm => by
    rw [delete]
    rcases hcmp : compare x k with _ | _ | _
    · -- x < k: the key can only live in the right subtree
      rw [compare_lt_iff_lt] at hcmp
      have hkr : memT k r := by
        rcases hm with h | h | h
        · exact absurd (h ▸ hcmp) (lt_irrefl k)
        · exact absurd (lt_trans (ForallT_mem (P := (· < x)) hfl h) hcmp) (lt_irrefl k)
        · exact h
      obtain ⟨r', hdr, br', hmemr⟩ := delete_mem_spec br hkr
      refine ⟨.Node x l r', by rw [hdr], ⟨hfl, ?_, bl, br'⟩, ?_⟩
      · exact mem_ForallT fun y hy => ForallT_mem (P := (x < ·)) hfr ((hmemr y).mp hy).1
      · intro y
        simp only [memT]
        constructor
        · rintro (h | h | h)
          · exact ⟨Or.inl h, fun he => absurd ((he ▸ h) ▸ hcmp) (lt_irrefl k)⟩
          · exact ⟨Or.inr (Or.inl h),
              fun he => absurd (lt_trans (ForallT_mem (P := (· < x)) hfl h) (he ▸ hcmp)) (lt_irrefl y)⟩
          · obtain ⟨hy, hne⟩ := (hmemr y).mp h
            exact ⟨Or.inr (Or.inr hy), hne⟩
        · rintro ⟨h | h | h, hne⟩
          · exact Or.inl h
          · exact Or.inr (Or.inl h)
          · exact Or.inr (Or.inr ((hmemr y).mpr ⟨h, hne⟩))
    · -- x = k: the node itself is deleted
      rw [compare_eq_iff_eq] at hcmp
      subst hcmp
      by_cases hle : l.is_empty
      · have hle' := is_empty_iff.mp hle
        subst hle'
        refine ⟨r, by simp [hle, is_empty], br, ?_⟩
        intro y
        simp only [memT]
        constructor
        · intro h
          exact ⟨Or.inr (Or.inr h), fun he => absurd (he ▸ ForallT_mem (P := (x < ·)) hfr h) (lt_irrefl x)⟩
        · rintro ⟨h | h | h, hne⟩
          · exact absurd h hne
          · exact absurd h (fun hf => hf)
          · exact h
      · rw [Bool.not_eq_true] at hle
        by_cases hre : r.is_empty
        · have hre' := is_empty_iff.mp hre
          subst hre'
          refine ⟨l, by rw [if_neg (by rw [hle]; exact Bool.false_ne_true)]; simp [is_empty], bl, ?_⟩
          intro y
          simp only [memT]
          constructor
          · intro h
            exact ⟨Or.inr (Or.inl h), fun he => absurd (he ▸ ForallT_mem (P := (· < x)) hfl h) (lt_irrefl x)⟩
          · rintro ⟨h | h | h, hne⟩
            · exact absurd h hne
            · exact h
            · exact absurd h (fun hf => hf)
        · -- both subtrees non-empty: successor splice
          rw [Bool.not_eq_true] at hre
          obtain ⟨s, hs⟩ := smallest_isSome (not_empty_of_is_empty_false hre)
          have hsr : memT s r := smallest_mem hs
          have hxs : x < s := ForallT_mem (P := (x < ·)) hfr hsr
          obtain ⟨r', hdr, br', hmemr⟩ := delete_mem_spec br hsr
          refine ⟨.Node s l r', by simp [hle, hre, hs, hdr], ?_, ?_⟩
          · refine ⟨ForallT_imp (fun y hy => lt_trans hy hxs) hfl, ?_, bl, br'⟩
            exact mem_ForallT fun y hy =>
              lt_of_le_of_ne (smallest_le br hs y ((hmemr y).mp hy).1)
                (fun he => ((hmemr y).mp hy).2 he.symm)
          · intro y
            simp only [memT]
            constructor
            · rintro (h | h | h)
              · exact ⟨Or.inr (Or.inr (h ▸ hsr)), fun he => absurd ((he.symm.trans h) ▸ hxs) (lt_irrefl s)⟩
              · exact ⟨Or.inr (Or.inl h),
                  fun he => absurd (he ▸ ForallT_mem (P := (· < x)) hfl h) (lt_irrefl x)⟩
              · obtain ⟨hy, _⟩ := (hmemr y).mp h
                exact ⟨Or.inr (Or.inr hy),
                  fun he => absurd (he ▸ ForallT_mem (P := (x < ·)) hfr hy) (lt_irrefl x)⟩
            · rintro ⟨h | h | h, hne⟩
              · exact absurd h hne
              · exact Or.inr (Or.inl h)
              · by_cases hys : y = s
                · exact Or.inl hys
                · exact Or.inr (Or.inr ((hmemr y).mpr ⟨h, hys⟩))
    · -- x > k: the key can only live in the left subtree
      rw [compare_gt_iff_gt] at hcmp
      have hkl : memT k l := by
        rcases hm with h | h | h
        · exact absurd (h ▸ hcmp) (lt_irrefl k)
        · exact h
        · exact absurd (lt_trans hcmp (ForallT_mem (P := (x < ·)) hfr h)) (lt_irrefl k)
      obtain ⟨l', hdl, bl', hmeml⟩ := delete_mem_spec bl hkl
      refine ⟨.Node x l' r, by rw [hdl], ⟨?_, hfr, bl', br⟩, ?_⟩
      · exact mem_ForallT fun y hy => ForallT_mem (P := (· < x)) hfl ((hmeml y).mp hy).1
      · intro y
        simp only [memT]
        constructor
        · rintro (h | h | h)
          · exact ⟨Or.inl h, fun he => absurd ((he ▸ h) ▸ hcmp) (lt_irrefl k)⟩
          · obtain ⟨hy, hne⟩ := (hmeml y).mp h
            exact ⟨Or.inr (Or.inl hy), hne⟩
          · exact ⟨Or.inr (Or.inr h),
              fun he => absurd (lt_trans (he ▸ hcmp) (ForallT_mem (P := (x < ·)) hfr h)) (lt_irrefl y)⟩
        · rintro ⟨h | h | h, hne⟩
          · exact Or.inl h
          · exact Or.inr (Or.inl ((hmeml y).mpr ⟨h, hne⟩))
          · exact Or.inr (Or.inr h)

/-- The two embeddings of `BinarySearchTree::delete` agree when every
comparison is ordered: under a total comparator the `todo!()` panic is
unreachable and `deleteP` returns exactly `delete`'s answer. -/
theorem deleteP_total [LinearOrder T] :
    ∀ (t : BinarySearchTree T) (k : T),
      deleteP (fun a b => some (compare a b)) t k = some (delete t k)
  | .Empty, _ => rfl
  | .Node x l r, key => by
    rw [deleteP, delete]
    rcases compare x key with _ | _ | _
    · rw [deleteP_total r key]
      rcases delete r key with _ | r' <;> rfl
    · by_cases hle : l.is_empty
      · simp [hle]
      · rw [Bool.not_eq_true] at hle
        by_cases hre : r.is_empty
        · simp [hle, hre]
        · rw [Bool.not_eq_true] at hre
          obtain ⟨s, hs⟩ := smallest_isSome (not_empty_of_is_empty_false hre)
          simp only [hle, hre, Bool.false_eq_true, if_false, hs]
          rw [deleteP_total r s]
          rcases delete r s with _ | r' <;> rfl
    · rw [deleteP_total l key]
      rcases delete l key with _ | l' <;> rfl

/-- Deleting from a BST always yields a BST (the absent case returns `none`). -/
theorem delete_isBST [LinearOrder T] {t t' : BinarySearchTree T} {k : T}
    (hb : isBST t) (hd : delete t k = some t') : isBST t' := by
  by_cases hm : memT k t
  · obtain ⟨t'', hd', hb', _⟩ := delete_mem_spec hb hm
    rw [hd] at hd'
    cases hd'
    exact hb'
  · rw [delete_not_mem hm] at hd
    exact absurd hd (by simp)

theorem is_empty_false_iff {t : BinarySearchTree T} : t.is_empty = false ↔ t ≠ .Empty := by
  cases t <;> simp [is_empty]

theorem applyOp_isBST [LinearOrder T] {t : BinarySearchTree T} (hb : isBST t) :
    ∀ op : TreeOp T, isBST (applyOp t op)
  | .ins x => insert_isBST hb
  | .del k => by
    rw [applyOp]
    rcases hd : delete t k with _ | t'
    · exact hb
    · exact delete_isBST hb hd

theorem foldl_applyOp_isBST [LinearOrder T] :
    ∀ (ops : List (TreeOp T)) (t : BinarySearchTree T), isBST t →
      isBST (ops.foldl applyOp t)
  | [], _, hb => hb
  | op :: ops, t, hb => foldl_applyOp_isBST ops (applyOp t op) (applyOp_isBST hb op)

theorem foldl_insert_isBST [LinearOrder T] :
    ∀ (xs : List T) (t : BinarySearchTree T), isBST t → isBST (xs.foldl insert t)
  | [], _, hb => hb
  | x :: xs, t, hb => foldl_insert_isBST xs (t.insert x) (insert_isBST hb)

theorem foldl_insert_mem [LinearOrder T] {y : T} :
    ∀ (xs : List T) (t : BinarySearchTree T),
      memT y (xs.foldl insert t) ↔ y ∈ xs ∨ memT y t
  | [], t => by simp
  | x :: xs, t => by
    rw [List.foldl_cons, foldl_insert_mem xs, insert_mem]
    simp only [List.mem_cons]
    tauto

theorem buildList_isBST [LinearOrder T] (xs : List T) : isBST (buildList xs) :=
  foldl_insert_isBST xs .Empty trivial

theorem buildList_mem [LinearOrder T] {y : T} (xs : List T) :
    memT y (buildList xs) ↔ y ∈ xs := by
  rw [buildList, foldl_insert_mem]
  simp [memT]

end Ordered

/-- **C1.** For every sequence of items inserted (and keys deleted) starting
from the empty tree — the caller keeping its tree when `delete` reports an
absent key — every node of the resulting `BinarySearchTree` satisfies the BST
order invariant: each item in a node's left subtree compares strictly less
than the node's item and each item in its right subtree strictly greater,
under the supplied ordering (a linear order, so every comparison is
ordered). -/
theorem claim_C1_bst_invariant {T : Type} [LinearOrder T] (ops : List (TreeOp T)) :
    isBST (buildOps ops) :=
  foldl_applyOp_isBST ops .Empty trivial

/-- **C2.** On a tree satisfying the BST invariant under a total order:
deleting a present key succeeds and returns a tree that still satisfies the
BST invariant and contains exactly the previously-present items minus the
deleted one; deleting an absent key (including from the empty tree) returns
nothing. -/
theorem claim_C2_delete_correct {T : Type} [LinearOrder T]
    (t : BinarySearchTree T) (k : T) (hb : isBST t) :
    (memT k t →
      ∃ t', delete t k = some t' ∧ isBST t' ∧
        ∀ y, memT y t' ↔ (memT y t ∧ y ≠ k)) ∧
    (¬ memT k t → delete t k = none) :=
  ⟨fun hm => delete_mem_spec hb hm, fun hnm => delete_not_mem hnm⟩

/-- Witness for C2 at the tree `2, 1, 3` and present key `2` (and, by the
second conjunct applied elsewhere, nothing rides on this particular input). -/
theorem claim_C2_witness :
    ∃ t', delete (buildList [2, 1, 3]) (2 : ℕ) = some t' ∧ isBST t' ∧
      ∀ y, memT y t' ↔ (memT y (buildList [2, 1, 3]) ∧ y ≠ 2) :=
  (claim_C2_delete_correct (buildList [2, 1, 3]) 2 (by decide)).1 (by decide)

/-- **C3.** When `delete` reaches a node comparing equal to the key whose
subtrees are both non-empty, the result replaces that node by one holding the
smallest item of the right subtree (the in-order successor: it is a member of
the right subtree and a lower bound of it), the same left subtree, and right
subtree `right.delete(successor)`. -/
theorem claim_C3_successor_splice {T : Type} [LinearOrder T]
    (x k : T) (l r : BinarySearchTree T) (hb : isBST (.Node x l r))
    (hcmp : compare x k = .eq) (hl : l ≠ .Empty) (hr : r ≠ .Empty) :
    ∃ s, smallest r = some s ∧ memT s r ∧ (∀ y, memT y r → s ≤ y) ∧
      delete (.Node x l r) k = (delete r s).map (fun r' => .Node s l r') := by
  obtain ⟨s, hs⟩ := smallest_isSome hr
  refine ⟨s, hs, smallest_mem hs, smallest_le hb.2.2.2 hs, ?_⟩
  rw [delete]
  rw [hcmp]
  rw [if_neg (by rw [is_empty_false_iff.mpr hl]; exact Bool.false_ne_true),
      if_neg (by rw [is_empty_false_iff.mpr hr]; exact Bool.false_ne_true), hs]
  rcases hd : delete r s with _ | r' <;> simp [hd]

/-- Witness for C3 at the spec's own example: the tree built by inserting
`50, 25, 75, 10, 40, 60, 90`, deleting `50`.  The successor is `60`; the
extra conjunct computes the full result: root item `60`, left subtree
unchanged (`25, 10, 40`), right subtree holding exactly `75` and `90`. -/
theorem claim_C3_witness :
    (∃ s, smallest (.Node 75 (make_leaf 60) (make_leaf 90)) = some s ∧
      memT s (.Node 75 (make_leaf 60) (make_leaf 90)) ∧
      (∀ y, memT y (.Node 75 (make_leaf 60) (make_leaf 90)) → s ≤ y) ∧
      delete (.Node (50 : ℕ) (.Node 25 (make_leaf 10) (make_leaf 40))
          (.Node 75 (make_leaf 60) (make_leaf 90))) 50 =
        (delete (.Node 75 (make_leaf 60) (make_leaf 90)) s).map
          (fun r' => .Node s (.Node 25 (make_leaf 10) (make_leaf 40)) r')) ∧
    buildList [50, 25, 75, 10, 40, 60, 90] =
      .Node (50 : ℕ) (.Node 25 (make_leaf 10) (make_leaf 40))
        (.Node 75 (make_leaf 60) (make_leaf 90)) ∧
    delete (buildList [50, 25, 75, 10, 40, 60, 90]) (50 : ℕ) =
      some (.Node 60 (.Node 25 (make_leaf 10) (make_leaf 40))
        (.Node 75 .Empty (make_leaf 90))) :=
  ⟨claim_C3_successor_splice 50 50 (.Node 25 (make_leaf 10) (make_leaf 40))
      (.Node 75 (make_leaf 60) (make_leaf 90))
      (by decide) (by decide) (by decide) (by decide),
    by decide, by decide⟩

/-- **C5.** For a tree built by inserting pairwise-distinct, totally ordered
items into the empty tree, `find` on each inserted item returns that item and
`find` on any key never inserted returns nothing. -/
theorem claim_C5_find_round_trip {T : Type} [LinearOrder T]
    (xs : List T) (hnd : xs.Nodup) :
    (∀ x ∈ xs, find (buildList xs) x = some x) ∧
    (∀ k, k ∉ xs → find (buildList xs) k = none) := by
  refine ⟨fun x hx => ?_, fun k hk => ?_⟩
  · exact find_mem (buildList_isBST xs) ((buildList_mem xs).mpr hx)
  · exact find_not_mem fun hm => hk ((buildList_mem xs).mp hm)

/-- Witness for C5 at the distinct insertion sequence `2, 1, 3`, looking up
the present item `2`. -/
theorem claim_C5_witness :
    find (buildList [2, 1, 3]) (2 : ℕ) = some 2 :=
  (claim_C5_find_round_trip [2, 1, 3] (by decide)).1 2 (by decide)

/-- **C4, as the code has it (the claim is corrected).**  When the comparison
`delete` performs at a node is unordered (`partial_cmp` returns `None`), the
call does not return at all: it hits the `todo!()` panic, modelled by the
outer `none` of `deleteP` — it does *not* produce the absent-key "no result"
outcome `some none`. -/
theorem claim_C4_unordered_panics {T : Type} (pcmp : T → T → Option Ordering)
    (x k : T) (l r : BinarySearchTree T) (h : pcmp x k = none) :
    deleteP pcmp (.Node x l r) k = none := by
  rw [deleteP, h]

/-- Witness for the corrected C4: a concrete one-node tree under a comparator
that relates nothing. -/
theorem claim_C4_witness :
    deleteP (fun _ _ => (none : Option Ordering)) (.Node (5 : ℕ) .Empty .Empty) 7 = none :=
  claim_C4_unordered_panics (fun _ _ => none) 5 7 .Empty .Empty rfl

/-- Counterexample to C4 as stated: on the one-node tree holding `0` under a
comparator that relates nothing, `delete 0` performs an unordered comparison,
and the outcome is the panic (`none`), not the absent-key return
(`some none`) the claim promises. -/
theorem claim_C4_counterexample :
    deleteP (fun _ _ => (none : Option Ordering)) (.Node (0 : ℕ) .Empty .Empty) 0 = none ∧
    deleteP (fun _ _ => (none : Option Ordering)) (.Node (0 : ℕ) .Empty .Empty) 0 ≠
      some none := by
  constructor
  · rfl
  · intro h
    cases h

end BinarySearchTree

/-!
### Store-model theorems: structural sharing of `insert`
-/

/-- `insertS` only ever appends to the store: no existing cell is written. -/
theorem insertS_grows {T : Type} (cmp : T → T → Ordering) :
    ∀ (fuel : Nat) (s : Store T) (root : Option Nat) (x : T) {s' : Store T} {a : Nat},
      insertS cmp fuel s root x = some (s', a) → ∃ ext, s' = s ++ ext
  | 0, _, _, _, _, _, h => by cases h
  | fuel + 1, s, none, x, s', a, h => by
    rw [insertS] at h
    cases h
    exact ⟨_, rfl⟩
  | fuel + 1, s, some b, x, s', a, h => by
    rw [insertS] at h
    split at h
    · cases h
    · rename_i nd hnd
      split at h
      · cases h
        exact ⟨_, rfl⟩
      · split at h
        · cases h
        · rename_i s1 l' hrec
          cases h
          obtain ⟨ext, rfl⟩ := insertS_grows cmp fuel s nd.left x hrec
          exact ⟨ext ++ [⟨nd.item, some l', nd.right⟩], by simp⟩
      · split at h
        · cases h
        · rename_i s1 r' hrec
          cases h
          obtain ⟨ext, rfl⟩ := insertS_grows cmp fuel s nd.right x hrec
          exact ⟨ext ++ [⟨nd.item, nd.left, some r'⟩], by simp⟩

/-- Reading a tree rooted inside the valid old part of a store is unaffected
by cells appended after it. -/
theorem findS_extend {T : Type} (cmp : T → T → Ordering) (s ext : Store T)
    (hv : ValidStore s) :
    ∀ (g : Nat) (r0 : Option Nat), (∀ b ∈ r0, b < s.length) → ∀ k,
      findS cmp g (s ++ ext) r0 k = findS cmp g s r0 k
  | 0, _, _, _ => rfl
  | _ + 1, none, _, _ => rfl
  | g + 1, some b, hr, k => by
    have hb : b < s.length := hr b rfl
    have happ : (s ++ ext)[b]? = s[b]? := by
      rw [List.getElem?_append, if_pos hb]
    rcases hnd : s[b]? with _ | nd
    · simp only [findS, happ, hnd]
    · have hmem : nd ∈ s := by
        obtain ⟨h, he⟩ := List.getElem?_eq_some.mp hnd
        exact he ▸ List.getElem_mem h
      obtain ⟨hvl, hvr⟩ := hv nd hmem
      simp only [findS, happ, hnd]
      rcases hcmp : cmp nd.item k with _ | _ | _ <;> simp only [hcmp]
      · exact findS_extend cmp s ext hv g nd.right hvr k
      · exact findS_extend cmp s ext hv g nd.left hvl k

/-- **C6.** `insert` never mutates an existing node and leaves the original
tree unchanged: in the store model, a successful `insertS` returns a store
that extends the old one by appended cells only, and therefore `find` from
the original root — through the new store — returns exactly what it returned
through the old store, for every key. -/
theorem claim_C6_insert_preserves_original {T : Type} (cmp : T → T → Ordering)
    (fuel : Nat) (s : Store T) (root : Option Nat) (x : T)
    (s' : Store T) (a : Nat)
    (hv : ValidStore s) (hroot : ∀ b ∈ root, b < s.length)
    (hins : insertS cmp fuel s root x = some (s', a)) :
    (∃ ext, s' = s ++ ext) ∧
    ∀ (g : Nat) (k : T), findS cmp g s' root k = findS cmp g s root k := by
  obtain ⟨ext, rfl⟩ := insertS_grows cmp fuel s root x hins
  exact ⟨⟨ext, rfl⟩, fun g k => findS_extend cmp s ext hv g root hroot k⟩

/-- Witness for C6: inserting `3` below the one-node store `[5]` appends a
leaf cell and a rebuilt root cell; reads from the old root are untouched. -/
theorem claim_C6_witness :
    (∃ ext, ([⟨5, none, none⟩, ⟨3, none, none⟩, ⟨5, some 1, none⟩] : Store ℕ) =
      [⟨5, none, none⟩] ++ ext) ∧
    ∀ (g : Nat) (k : ℕ),
      findS compare g ([⟨5, none, none⟩, ⟨3, none, none⟩, ⟨5, some 1, none⟩] : Store ℕ)
          (some 0) k =
        findS compare g ([⟨5, none, none⟩] : Store ℕ) (some 0) k :=
  claim_C6_insert_preserves_original compare 2 [⟨5, none, none⟩] (some 0) 3
    [⟨5, none, none⟩, ⟨3, none, none⟩, ⟨5, some 1, none⟩] 2
    (by decide)
    (by intro b hb; rw [Option.mem_def] at hb; injection hb with h; subst h; decide)
    (by rfl)

/-- **C7.** Inserting an item that compares equal to the root's item
allocates exactly one node: it holds the new item, and its left and right
fields are the very addresses of the original root's subtrees (shared by
reference, not rebuilt); every pre-existing cell of the store is unchanged. -/
theorem claim_C7_equal_insert_shares_subtrees {T : Type} (cmp : T → T → Ordering)
    (fuel : Nat) (s : Store T) (a : Nat) (nd : RcNode T) (x : T)
    (hnd : s[a]? = some nd) (hcmp : cmp x nd.item = .eq) :
    insertS cmp (fuel + 1) s (some a) x =
      some (s ++ [⟨x, nd.left, nd.right⟩], s.length) := by
  simp only [insertS, hnd, hcmp]

/-- Witness for C7: replacing the payload of the root `5` (children `1` at
address 0 and `9` at address 1) appends one cell whose subtree addresses are
still `0` and `1`. -/
theorem claim_C7_witness :
    insertS compare 1 ([⟨1, none, none⟩, ⟨9, none, none⟩, ⟨5, some 0, some 1⟩] : Store ℕ)
        (some 2) 5 =
      some ([⟨1, none, none⟩, ⟨9, none, none⟩, ⟨5, some 0, some 1⟩] ++
        [⟨5, some 0, some 1⟩], 3) :=
  claim_C7_equal_insert_shares_subtrees compare 0
    [⟨1, none, none⟩, ⟨9, none, none⟩, ⟨5, some 0, some 1⟩] 2 ⟨5, some 0, some 1⟩ 5
    (by decide) (by decide)

/-!
### Heap theorems
-/

namespace Heap

variable {T : Type}

theorem swapL_length (l : List T) (i j : Nat) : (swapL l i j).length = l.length := by
  unfold swapL
  split <;> simp

theorem swapL_getElem? {l : List T} {i j : Nat} (hi : i < l.length) (hj : j < l.length)
    (k : Nat) :
    (swapL l i j)[k]? = if j = k then l[i]? else if i = k then l[j]? else l[k]? := by
  have hia : l[i]? = some l[i] := List.getElem?_eq_getElem hi
  have hja : l[j]? = some l[j] := List.getElem?_eq_getElem hj
  simp only [swapL, hia, hja]
  rw [List.getElem?_set, List.getElem?_set]
  by_cases hjk : j = k <;> by_cases hik : i = k <;>
    simp [hjk, hik, hia, hja, List.length_set, hi, hj] <;> omega

theorem cons_set_perm {x : T} :
    ∀ (t : List T) (k : Nat) {b : T}, t[k]? = some b → (b :: t.set k x).Perm (x :: t)
  | [], _, _, h => by simp at h
  | y :: t2, 0, b, h => by
    have hb : y = b := by simpa using h
    subst hb
    simpa using List.Perm.swap x y t2
  | y :: t2, k + 1, b, h => by
    simp only [List.getElem?_cons_succ] at h
    rw [List.set_cons_succ]
    exact ((List.Perm.swap y b (t2.set k x)).trans
      ((cons_set_perm t2 k h).cons y)).trans (List.Perm.swap x y t2)

theorem set_set_swap_perm :
    ∀ (l : List T) (i j : Nat) {a b : T}, l[i]? = some a → l[j]? = some b →
      ((l.set i b).set j a).Perm l
  | [], _, _, _, _, ha, _ => by simp at ha
  | x :: t, 0, 0, a, b, ha, hb => by
    simp only [List.getElem?_cons_zero, Option.some.injEq] at ha hb
    subst ha; subst hb
    simp
  | x :: t, 0, j + 1, a, b, ha, hb => by
    simp only [List.getElem?_cons_zero, Option.some.injEq] at ha
    simp only [List.getElem?_cons_succ] at hb
    subst ha
    rw [List.set_cons_zero, List.set_cons_succ]
    exact cons_set_perm t j hb
  | x :: t, i + 1, 0, a, b, ha, hb => by
    simp only [List.getElem?_cons_zero, Option.some.injEq] at hb
    simp only [List.getElem?_cons_succ] at ha
    subst hb
    rw [List.set_cons_succ, List.set_cons_zero]
    exact cons_set_perm t i ha
  | x :: t, i + 1, j + 1, a, b, ha, hb => by
    simp only [List.getElem?_cons_succ] at ha hb
    rw [List.set_cons_succ, List.set_cons_succ]
    exact (set_set_swap_perm t i j ha hb).cons x

theorem swapL_perm (l : List T) (i j : Nat) : (swapL l i j).Perm l := by
  unfold swapL
  split
  · rename_i a b ha hb
    exact set_set_swap_perm l i j ha hb
  · exact List.Perm.refl l

theorem trickle_up_perm [LinearOrder T] (data : List T) (node : Nat) :
    (trickle_up data node).Perm data := by
  induction data, node using trickle_up.induct with
  | case1 data =>
    rw [trickle_up]
    simp
  | case2 data node h0 a b hn hp hlt ih =>
    rw [trickle_up]
    simp only [dif_neg h0, hp, hn, if_pos hlt]
    exact ih.trans (swapL_perm data (parent node) node)
  | case3 data node h0 a b hn hp hlt =>
    rw [trickle_up]
    simp only [dif_neg h0, hp, hn, if_neg hlt]
    exact List.Perm.refl _
  | case4 data node h0 hnone =>
    rw [trickle_up]
    simp only [dif_neg h0]
    rcases hp : data[parent node]? with _ | a <;> rcases hn : data[node]? with _ | b
    · exact List.Perm.refl _
    · exact List.Perm.refl _
    · exact List.Perm.refl _
    · exact (hnone a b hp hn).elim

theorem trickle_down_perm [LinearOrder T] (data : List T) (node : Nat) :
    (trickle_down data node).Perm data := by
  induction data, node using trickle_down.induct with
  | case1 data node hl =>
    rw [trickle_down]
    simp only [dif_pos hl]
    exact List.Perm.refl _
  | case2 data node hl hr hlt ih =>
    rw [trickle_down]
    simp only [dif_neg hl, dif_pos hr, if_pos hlt]
    exact ih.trans (swapL_perm data node (node * 2 + 1))
  | case3 data node hl hr hlt =>
    rw [trickle_down]
    simp only [dif_neg hl, dif_pos hr, if_neg hlt]
    exact List.Perm.refl _
  | case4 data node hl hr hgt hlt ih =>
    rw [trickle_down]
    simp only [dif_neg hl, dif_neg hr, if_pos hgt, if_pos hlt]
    exact ih.trans (swapL_perm data node (node * 2 + 1))
  | case5 data node hl hr hgt hlt =>
    rw [trickle_down]
    simp only [dif_neg hl, dif_neg hr, if_pos hgt, if_neg hlt]
    exact List.Perm.refl _
  | case6 data node hl hr hgt hlt ih =>
    rw [trickle_down]
    simp only [dif_neg hl, dif_neg hr, if_neg hgt, if_pos hlt]
    exact ih.trans (swapL_perm data node (node * 2 + 2))
  | case7 data node hl hr hgt hlt =>
    rw [trickle_down]
    simp only [dif_neg hl, dif_neg hr, if_neg hgt, if_neg hlt]
    exact List.Perm.refl _

theorem foldl_trickle_up_perm [LinearOrder T] :
    ∀ (is : List Nat) (l : List T), ((is.foldl trickle_up l)).Perm l
  | [], _ => List.Perm.refl _
  | i :: is, l =>
    (foldl_trickle_up_perm is (trickle_up l i)).trans (trickle_up_perm l i)

theorem from_vec_perm [LinearOrder T] (v : List T) : (from_vec v).Perm v :=
  foldl_trickle_up_perm _ v

theorem push_perm [LinearOrder T] (l : List T) (x : T) : (push l x).Perm (x :: l) :=
  (trickle_up_perm (l ++ [x]) l.length).trans (List.perm_append_singleton x l)

theorem pop_fst_snd_perm [LinearOrder T] :
    ∀ (l : List T), l ≠ [] → ∃ a l2, pop l = (some a, l2) ∧ (a :: l2).Perm l
  | [], h => absurd rfl h
  | v :: rest, _ => by
    rw [pop]
    rcases hlast : rest.getLast? with _ | last
    · have : rest = [] := List.getLast?_eq_none_iff.mp hlast
      subst this
      refine ⟨v, trickle_down [] 0, rfl, ?_⟩
      have hnil : trickle_down ([] : List T) 0 = [] := by
        rw [trickle_down]
        simp
      rw [hnil]
    · obtain ⟨ys, rfl⟩ := List.getLast?_eq_some_iff.mp hlast
      refine ⟨v, trickle_down (last :: (ys ++ [last]).dropLast) 0, rfl, ?_⟩
      have h1 : (trickle_down (last :: (ys ++ [last]).dropLast) 0).Perm
          (last :: (ys ++ [last]).dropLast) := trickle_down_perm _ 0
      have h2 : (last :: (ys ++ [last]).dropLast).Perm (ys ++ [last]) := by
        rw [List.dropLast_concat]
        exact (List.perm_append_singleton last ys).symm
      exact (h1.trans h2).cons v

theorem optLe_left_none [LinearOrder T] (o : Option T) : optLe none o := by
  cases o <;> trivial

theorem optLe_right_none [LinearOrder T] (o : Option T) : optLe o none := by
  cases o <;> trivial

theorem optLe_some_some [LinearOrder T] {a b : T} (h : a ≤ b) :
    optLe (some a) (some b) := h

theorem optLe_trans_some [LinearOrder T] {o : Option T} {a b : T}
    (h1 : optLe o (some a)) (h2 : a ≤ b) : optLe o (some b) := by
  cases o with
  | none => trivial
  | some c => exact le_trans h1 h2

theorem optLe_chain [LinearOrder T] {o1 o2 : Option T} {a : T}
    (h1 : optLe o1 (some a)) (h2 : optLe (some a) o2) : optLe o1 o2 := by
  cases o1 with
  | none => exact optLe_left_none o2
  | some c =>
    cases o2 with
    | none => trivial
    | some d => exact le_trans h1 h2

theorem trickle_up_length [LinearOrder T] (data : List T) (node : Nat) :
    (trickle_up data node).length = data.length :=
  (trickle_up_perm data node).length_eq

theorem trickle_down_length [LinearOrder T] (data : List T) (node : Nat) :
    (trickle_down data node).length = data.length :=
  (trickle_down_perm data node).length_eq

/-- Sift-up repair: if the heap order holds on indices below `m` everywhere
except possibly on the edge from `node` to its parent, and every child of
`node` (below `m`) is already bounded by `node`'s parent, then after
`trickle_up data node` the heap order holds on all indices below `m`. -/
theorem trickle_up_inv [LinearOrder T] (data : List T) (node : Nat) :
    ∀ m : Nat, node < m →
      (∀ j, j ≠ 0 → j < m → j ≠ node → optLe data[j]? data[parent j]?) →
      (∀ j, j ≠ 0 → j < m → parent j = node → optLe data[j]? data[parent node]?) →
      ∀ j, j ≠ 0 → j < m →
        optLe (trickle_up data node)[j]? ((trickle_up data node)[parent j]?) := by
  induction data, node using trickle_up.induct with
  | case1 data =>
    intro m hm h1 h2 j hj0 hjm
    rw [trickle_up]
    simp only [dif_pos rfl]
    exact h1 j hj0 hjm hj0
  | case2 data node h0 a b hn hp hlt ih =>
    intro m hm h1 h2 j hj0 hjm
    rw [trickle_up]
    simp only [dif_neg h0, hp, hn, if_pos hlt]
    have hplen : parent node < data.length := (List.getElem?_eq_some.mp hp).1
    have hnlen : node < data.length := (List.getElem?_eq_some.mp hn).1
    have hpn : parent node < node := by simp only [parent]; omega
    have hswap : ∀ k, (swapL data (parent node) node)[k]? =
        if node = k then data[parent node]? else if parent node = k then data[node]?
        else data[k]? := fun k => swapL_getElem? hplen hnlen k
    refine ih m (lt_trans hpn hm) ?_ ?_ j hj0 hjm
    · -- heap order except at `parent node`
      intro j hj0 hjm hjp
      rw [hswap j, hswap (parent j)]
      by_cases hjn : j = node
      · subst hjn
        rw [if_pos rfl, if_neg (by simp only [parent]; omega : ¬ j = parent j),
          if_pos rfl, hp, hn]
        exact le_of_lt hlt
      · rw [if_neg (fun he => hjn he.symm), if_neg (fun he => hjp he.symm)]
        by_cases hpjn : parent j = node
        · rw [if_pos hpjn.symm, hp]
          have hthis := h2 j hj0 hjm hpjn
          rw [hp] at hthis
          exact hthis
        · rw [if_neg (fun he => hpjn he.symm)]
          by_cases hpjp : parent j = parent node
          · rw [if_pos hpjp.symm, hn]
            have hthis := h1 j hj0 hjm hjn
            rw [hpjp, hp] at hthis
            exact optLe_trans_some hthis (le_of_lt hlt)
          · rw [if_neg (fun he => hpjp he.symm)]
            exact h1 j hj0 hjm hjn
    · -- children of `parent node` are bounded by its parent
      intro j hj0 hjm hpj
      have hpn' : parent node < node := hpn
      rw [hswap j, hswap (parent (parent node))]
      by_cases hp0 : parent node = 0
      · -- the parent is the root: its parent index is itself
        have hq : parent (parent node) = parent node := by rw [hp0]; rfl
        rw [hq, if_neg (by simp only [parent]; omega : ¬ node = parent node),
          if_pos rfl, hn]
        by_cases hjn : j = node
        · subst hjn
          rw [if_pos rfl, hp]
          exact le_of_lt hlt
        · rw [if_neg (fun he => hjn he.symm),
            if_neg (by simp only [parent] at hpj ⊢; omega : ¬ parent node = j)]
          have hthis := h1 j hj0 hjm hjn
          rw [hpj, hp] at hthis
          exact optLe_trans_some hthis (le_of_lt hlt)
      · -- the parent is not the root
        have hqlt : parent (parent node) < parent node := by
          simp only [parent] at hp0 ⊢; omega
        rw [if_neg (by omega : ¬ node = parent (parent node)),
          if_neg (by omega : ¬ parent node = parent (parent node))]
        by_cases hjn : j = node
        · subst hjn
          rw [if_pos rfl, hp]
          have hthis := h1 (parent j) hp0 (lt_trans hpn' hjm)
            (by simp only [parent]; omega)
          rw [hp] at hthis
          exact hthis
        · rw [if_neg (fun he => hjn he.symm),
            if_neg (by simp only [parent] at hpj ⊢; omega : ¬ parent node = j)]
          have hja := h1 j hj0 hjm hjn
          rw [hpj, hp] at hja
          have hpa := h1 (parent node) hp0 (lt_trans hpn' hm)
            (by simp only [parent]; omega)
          rw [hp] at hpa
          exact optLe_chain hja hpa
  | case3 data node h0 a b hn hp hlt =>
    intro m hm h1 h2 j hj0 hjm
    rw [trickle_up]
    simp only [dif_neg h0, hp, hn, if_neg hlt]
    by_cases hjn : j = node
    · subst hjn
      rw [hn, hp]
      exact not_lt.mp hlt
    · exact h1 j hj0 hjm hjn
  | case4 data node h0 hnone =>
    intro m hm h1 h2 j hj0 hjm
    rw [trickle_up]
    simp only [dif_neg h0]
    rcases hp : data[parent node]? with _ | a <;> rcases hn : data[node]? with _ | b
    · by_cases hjn : j = node
      · subst hjn; rw [hp]; exact optLe_right_none _
      · exact h1 j hj0 hjm hjn
    · by_cases hjn : j = node
      · subst hjn; rw [hp]; exact optLe_right_none _
      · exact h1 j hj0 hjm hjn
    · by_cases hjn : j = node
      · subst hjn; rw [hn]; exact optLe_left_none _
      · exact h1 j hj0 hjm hjn
    · exact (hnone a b hp hn).elim

/-- Heap order on all in-range indices is the full heap order (out-of-range
reads are `none` and vacuous). -/
theorem heapInv_of_bounded [LinearOrder T] {l : List T}
    (h : ∀ j, j ≠ 0 → j < l.length → optLe l[j]? l[parent j]?) : heapInv l := by
  intro j hj0
  by_cases hj : j < l.length
  · exact h j hj0 hj
  · rw [List.getElem?_eq_none (by omega)]
    exact optLe_left_none _

/-- `push` keeps the heap order: the appended slot is the only suspect edge,
and `trickle_up` repairs it. -/
theorem push_heapInv [LinearOrder T] {l : List T} (x : T) (h : heapInv l) :
    heapInv (push l x) := by
  rw [push]
  apply heapInv_of_bounded
  rw [trickle_up_length, List.length_append, List.length_singleton]
  intro j hj0 hjlen
  refine trickle_up_inv (l ++ [x]) l.length (l.length + 1) (by omega) ?_ ?_ j hj0 hjlen
  · intro j hj0 hjm hjn
    have hj : j < l.length := by omega
    have hpj : parent j < l.length := by simp only [parent]; omega
    rw [List.getElem?_append, List.getElem?_append, if_pos hj, if_pos hpj]
    exact h j hj0
  · intro j hj0 hjm hpjn
    exact absurd hpjn (by simp only [parent]; omega)

/-- The `from_vec` loop invariant: sifting indices `i, i+1, …` upward extends
the prefix on which the heap order holds. -/
theorem foldl_trickle_up_inv [LinearOrder T] :
    ∀ (c i : Nat) (l : List T), 1 ≤ i →
      (∀ j, j ≠ 0 → j < i → optLe l[j]? l[parent j]?) →
      ∀ j, j ≠ 0 → j < i + c →
        optLe ((List.range' i c).foldl trickle_up l)[j]?
          (((List.range' i c).foldl trickle_up l)[parent j]?)
  | 0, i, l, _, hinv => fun j hj0 hj => hinv j hj0 (by omega)
  | c + 1, i, l, hi, hinv => by
    rw [List.range'_succ, List.foldl_cons]
    have hnext := trickle_up_inv l i (i + 1) (by omega)
      (fun j hj0 hjm _ => hinv j hj0 (by omega))
      (fun j hj0 hjm hpj => absurd hpj (by simp only [parent]; omega))
    intro j hj0 hj
    exact foldl_trickle_up_inv c (i + 1) (trickle_up l i) (by omega) hnext j hj0
      (by omega)

/-- `from_vec` establishes the heap order from an arbitrary input vector. -/
theorem from_vec_heapInv [LinearOrder T] (v : List T) : heapInv (from_vec v) := by
  rw [from_vec]
  intro j hj0
  by_cases hj : j < 1 + (v.length - 1)
  · exact foldl_trickle_up_inv (v.length - 1) 1 v (le_refl 1)
      (fun j hj0 hji => absurd hji (by omega)) j hj0 hj
  · rw [List.getElem?_eq_none]
    · exact optLe_left_none _
    · have hlen : ((List.range' 1 (v.length - 1)).foldl trickle_up v).length = v.length :=
        (foldl_trickle_up_perm _ v).length_eq
      omega

/-- One sift-down swap step: if the heap order holds except on the edges out
of `node`, the chosen child `c` dominates its sibling, and `node`'s slot is
below `c`'s, then after swapping `node` with `c` the same shape of
hypotheses holds one level down, at `c`. -/
theorem down_step [LinearOrder T] {data : List T} {node c : Nat}
    (hnl : node < data.length) (hcl : c < data.length)
    (hpc : parent c = node) (hnc : node < c)
    (h1 : ∀ j, j ≠ 0 → parent j ≠ node → optLe data[j]? data[parent j]?)
    (h2 : node ≠ 0 → ∀ j, j ≠ 0 → parent j = node → optLe data[j]? data[parent node]?)
    (hsib : ∀ j, j ≠ 0 → parent j = node → j ≠ c → optLe data[j]? data[c]?)
    (hlt : optLe data[node]? data[c]?) :
    (∀ j, j ≠ 0 → parent j ≠ c →
        optLe (swapL data node c)[j]? ((swapL data node c)[parent j]?)) ∧
    (c ≠ 0 → ∀ j, j ≠ 0 → parent j = c →
        optLe (swapL data node c)[j]? ((swapL data node c)[parent c]?)) := by
  have hswap : ∀ k, (swapL data node c)[k]? =
      if c = k then data[node]? else if node = k then data[c]? else data[k]? :=
    fun k => swapL_getElem? hnl hcl k
  have hc0 : c ≠ 0 := by omega
  have hpnn : parent node < node ∨ node = 0 := by simp only [parent]; omega
  constructor
  · intro j hj0 hpjc
    rw [hswap j, hswap (parent j)]
    by_cases hjc : j = c
    · subst hjc
      rw [if_pos rfl, hpc, if_neg (by omega : ¬ j = node),
        if_pos rfl]
      exact hlt
    · by_cases hjn : j = node
      · subst hjn
        rw [if_neg (fun he => hjc he.symm), if_pos rfl,
          if_neg (by simp only [parent]; omega : ¬ c = parent j),
          if_neg (by simp only [parent]; omega : ¬ j = parent j)]
        exact h2 hj0 c hc0 hpc
      · rw [if_neg (fun he => hjc he.symm), if_neg (fun he => hjn he.symm)]
        by_cases hpjn : parent j = node
        · rw [if_neg (by rw [hpjn]; omega : ¬ c = parent j),
            if_pos hpjn.symm]
          exact hsib j hj0 hpjn hjc
        · rw [if_neg (fun he => hpjc he.symm), if_neg (fun he => hpjn he.symm)]
          exact h1 j hj0 hpjn
  · intro _ j hj0 hpjc
    have hjgt : c < j := by simp only [parent] at hpjc; omega
    rw [hswap j, hswap (parent c), hpc]
    rw [if_neg (by omega : ¬ c = j), if_neg (by omega : ¬ node = j),
      if_neg (by omega : ¬ c = node), if_pos rfl]
    have hthis := h1 j hj0 (by omega : parent j ≠ node)
    rw [hpjc] at hthis
    exact hthis

/-- Sift-down repair: if the heap order holds everywhere except possibly on
the edges from `node` to its children, and (when `node` is not the root)
`node`'s children and slot are bounded by `node`'s parent, then
`trickle_down data node` satisfies the heap order everywhere. -/
theorem trickle_down_inv [LinearOrder T] (data : List T) (node : Nat) :
    (∀ j, j ≠ 0 → parent j ≠ node → optLe data[j]? data[parent j]?) →
    (node ≠ 0 → ∀ j, j ≠ 0 → parent j = node → optLe data[j]? data[parent node]?) →
    heapInv (trickle_down data node) := by
  induction data, node using trickle_down.induct with
  | case1 data node hl =>
    intro h1 h2 j hj0
    rw [trickle_down]
    simp only [dif_pos hl]
    by_cases hpj : parent j = node
    · rw [List.getElem?_eq_none (by simp only [parent] at hpj; omega : data.length ≤ j)]
      exact optLe_left_none _
    · exact h1 j hj0 hpj
  | case2 data node hl hr hlt ih =>
    intro h1 h2
    rw [trickle_down]
    simp only [dif_neg hl, dif_pos hr, if_pos hlt]
    have hnl : node < data.length := by omega
    have hcl : node * 2 + 1 < data.length := by omega
    have hstep := down_step hnl hcl (by simp only [parent]; omega) (by omega) h1 h2
      (fun j hj0 hpj hjc => by
        rw [List.getElem?_eq_none (by simp only [parent] at hpj; omega : data.length ≤ j)]
        exact optLe_left_none _)
      (by rw [List.getElem?_eq_getElem hnl, List.getElem?_eq_getElem hcl]
          exact le_of_lt hlt)
    exact ih hstep.1 hstep.2
  | case3 data node hl hr hlt =>
    intro h1 h2 j hj0
    rw [trickle_down]
    simp only [dif_neg hl, dif_pos hr, if_neg hlt]
    have hnl : node < data.length := by omega
    have hcl : node * 2 + 1 < data.length := by omega
    by_cases hpj : parent j = node
    · rw [hpj]
      by_cases hjc : j = node * 2 + 1
      · subst hjc
        rw [List.getElem?_eq_getElem hnl, List.getElem?_eq_getElem hcl]
        exact not_lt.mp hlt
      · rw [List.getElem?_eq_none (by simp only [parent] at hpj; omega : data.length ≤ j)]
        exact optLe_left_none _
    · exact h1 j hj0 hpj
  | case4 data node hl hr hgt hlt ih =>
    intro h1 h2
    rw [trickle_down]
    simp only [dif_neg hl, dif_neg hr, if_pos hgt, if_pos hlt]
    have hnl : node < data.length := by omega
    have hcl : node * 2 + 1 < data.length := by omega
    have hrl : node * 2 + 2 < data.length := by omega
    have hstep := down_step hnl hcl (by simp only [parent]; omega) (by omega) h1 h2
      (fun j hj0 hpj hjc => by
        have hj2 : j = node * 2 + 2 := by simp only [parent] at hpj; omega
        subst hj2
        rw [List.getElem?_eq_getElem hrl, List.getElem?_eq_getElem hcl]
        exact le_of_lt hgt)
      (by rw [List.getElem?_eq_getElem hnl, List.getElem?_eq_getElem hcl]
          exact le_of_lt hlt)
    exact ih hstep.1 hstep.2
  | case5 data node hl hr hgt hlt =>
    intro h1 h2 j hj0
    rw [trickle_down]
    simp only [dif_neg hl, dif_neg hr, if_pos hgt, if_neg hlt]
    have hnl : node < data.length := by omega
    have hcl : node * 2 + 1 < data.length := by omega
    have hrl : node * 2 + 2 < data.length := by omega
    by_cases hpj : parent j = node
    · rw [hpj]
      have hj2 : j = node * 2 + 1 ∨ j = node * 2 + 2 := by
        simp only [parent] at hpj; omega
      rcases hj2 with hj2 | hj2 <;> subst hj2
      · rw [List.getElem?_eq_getElem hnl, List.getElem?_eq_getElem hcl]
        exact not_lt.mp hlt
      · rw [List.getElem?_eq_getElem hnl, List.getElem?_eq_getElem hrl]
        exact le_trans (le_of_lt hgt) (not_lt.mp hlt)
    · exact h1 j hj0 hpj
  | case6 data node hl hr hgt hlt ih =>
    intro h1 h2
    rw [trickle_down]
    simp only [dif_neg hl, dif_neg hr, if_neg hgt, if_pos hlt]
    have hnl : node < data.length := by omega
    have hcl : node * 2 + 1 < data.length := by omega
    have hrl : node * 2 + 2 < data.length := by omega
    have hstep := down_step hnl hrl (by simp only [parent]; omega) (by omega) h1 h2
      (fun j hj0 hpj hjc => by
        have hj2 : j = node * 2 + 1 := by simp only [parent] at hpj; omega
        subst hj2
        rw [List.getElem?_eq_getElem hcl, List.getElem?_eq_getElem hrl]
        exact not_lt.mp hgt)
      (by rw [List.getElem?_eq_getElem hnl, List.getElem?_eq_getElem hrl]
          exact le_of_lt hlt)
    exact ih hstep.1 hstep.2
  | case7 data node hl hr hgt hlt =>
    intro h1 h2 j hj0
    rw [trickle_down]
    simp only [dif_neg hl, dif_neg hr, if_neg hgt, if_neg hlt]
    have hnl : node < data.length := by omega
    have hcl : node * 2 + 1 < data.length := by omega
    have hrl : node * 2 + 2 < data.length := by omega
    by_cases hpj : parent j = node
    · rw [hpj]
      have hj2 : j = node * 2 + 1 ∨ j = node * 2 + 2 := by
        simp only [parent] at hpj; omega
      rcases hj2 with hj2 | hj2 <;> subst hj2
      · rw [List.getElem?_eq_getElem hnl, List.getElem?_eq_getElem hcl]
        exact le_trans (not_lt.mp hgt) (not_lt.mp hlt)
      · rw [List.getElem?_eq_getElem hnl, List.getElem?_eq_getElem hrl]
        exact not_lt.mp hlt
    · exact h1 j hj0 hpj

/-- `pop` keeps the heap order: after `swap_remove(0)` only the root's edges
are suspect, and `trickle_down 0` repairs them. -/
theorem pop_heapInv [LinearOrder T] :
    ∀ {l : List T}, heapInv l → heapInv ((pop l).2)
  | [], _ => fun j hj0 => optLe_left_none _
  | v :: rest, h => by
    rw [pop]
    rcases hlast : rest.getLast? with _ | last
    · have : rest = [] := List.getLast?_eq_none_iff.mp hlast
      subst this
      intro j hj0
      have hnil : trickle_down ([] : List T) 0 = [] := by rw [trickle_down]; simp
      rw [hnil]
      exact optLe_left_none _
    · obtain ⟨ys, rfl⟩ := List.getLast?_eq_some_iff.mp hlast
      simp only [List.dropLast_concat]
      refine trickle_down_inv (last :: ys) 0 ?_ (fun h0 => absurd rfl h0)
      intro j hj0 hpj0
      rcases j with _ | k
      · exact absurd rfl hj0
      · by_cases hk : k < ys.length
        · have hdj : (last :: ys)[k + 1]? = (v :: (ys ++ [last]))[k + 1]? := by
            rw [List.getElem?_cons_succ, List.getElem?_cons_succ,
              List.getElem?_append, if_pos hk]
          have hp1 : 1 ≤ parent (k + 1) := by omega
          have hpk : parent (k + 1) - 1 < ys.length := by
            simp only [parent] at *; omega
          have hdp : (last :: ys)[parent (k + 1)]? =
              (v :: (ys ++ [last]))[parent (k + 1)]? := by
            obtain ⟨m, hm⟩ : ∃ m, parent (k + 1) = m + 1 :=
              ⟨parent (k + 1) - 1, by omega⟩
            rw [hm]
            rw [hm] at hpk
            simp only [Nat.add_sub_cancel] at hpk
            rw [List.getElem?_cons_succ, List.getElem?_cons_succ,
              List.getElem?_append, if_pos hpk]
          rw [hdj, hdp]
          exact h (k + 1) (by omega)
        · rw [List.getElem?_cons_succ, List.getElem?_eq_none (by omega)]
          exact optLe_left_none _

theorem applyHeapOp_heapInv [LinearOrder T] {l : List T} (h : heapInv l) :
    ∀ op : HeapOp T, heapInv (applyHeapOp l op)
  | .push x => push_heapInv x h
  | .pop => pop_heapInv h

theorem foldl_heapOp_heapInv [LinearOrder T] :
    ∀ (ops : List (HeapOp T)) (l : List T), heapInv l →
      heapInv (ops.foldl applyHeapOp l)
  | [], _, h => h
  | op :: ops, l, h => foldl_heapOp_heapInv ops (applyHeapOp l op) (applyHeapOp_heapInv h op)

/-- **C8.** For every input vector heapified by `from_vec` and every sequence
of pushes and pops run on it (`runHeap`, with `v = []` this is the heap built
by `new()`), the backing storage satisfies the heap order invariant: every
non-root in-range index holds an element not greater than the one at its
parent index `(i-1)/2`. -/
theorem claim_C8_heap_invariant {T : Type} [LinearOrder T]
    (v : List T) (ops : List (HeapOp T)) : heapInv (runHeap v ops) :=
  foldl_heapOp_heapInv ops (from_vec v) (from_vec_heapInv v)

/-- **C9.** `pop` on the empty heap returns nothing, and on every heap it
does exactly what the spec says: save the root, move the last element of the
backing storage into the root slot, shrink the storage by one, sift the new
root downward, return the saved root (`popSpec` transcribes those words). -/
theorem claim_C9_pop_refines_spec {T : Type} [LinearOrder T] :
    pop ([] : List T) = (none, []) ∧ ∀ data : List T, pop data = popSpec data := by
  refine ⟨rfl, ?_⟩
  intro data
  match data with
  | [] => rfl
  | v :: rest =>
    rw [pop, popSpec]
    rcases hlast : rest.getLast? with _ | last
    · have : rest = [] := List.getLast?_eq_none_iff.mp hlast
      subst this
      rfl
    · obtain ⟨ys, rfl⟩ := List.getLast?_eq_some_iff.mp hlast
      have hco : (v :: (ys ++ [last])).getLast? = some last := by
        rw [← List.cons_append]
        exact List.getLast?_concat _
      simp only [hlast, hco, List.head?_cons, List.set_cons_zero]
      rw [List.dropLast_cons_of_ne_nil (by simp)]

/-- **C10.** Every heap operation preserves the stored multiset up to the
documented addition/removal: `from_vec` then `into_vec` is a permutation of
the input; `push` adds exactly the pushed item; `pop` on a non-empty heap
removes exactly the returned element. -/
theorem claim_C10_multiset_preserved {T : Type} [LinearOrder T]
    (v l : List T) (x : T) :
    (into_vec (from_vec v)).Perm v ∧
    (push l x).Perm (x :: l) ∧
    (l ≠ [] → ∃ a l2, pop l = (some a, l2) ∧ (a :: l2).Perm l) :=
  ⟨from_vec_perm v, push_perm l x, pop_fst_snd_perm l⟩

end Heap

end DS
